import Mathlib

/-!
Verification of the toy-storage key-value store (wire codec and store actor).

Bytes of the wire protocol are modelled as `Char` lists; keys and values are
`List Char`.  `splitOnSpace` embeds Rust's `str::split(' ')` (keeping empty
fields), `findNl` embeds `Iterator::position(|v| *v == b'\n')`, and the
`Codec`, `Request`, `Response` and store-actor definitions are translated
from `src/codec.rs`, `src/api/codec.rs`, `src/store.rs` and
`src/storage/inmemory.rs`.
-/

/-- Embedding of Rust `src.split(' ')` collected into a vector: splits on every
space character, keeping empty fields, so the result is never empty. -/
def splitOnSpace : List Char → List (List Char)
  | [] => [[]]
  | c :: cs =>
    if c = ' ' then [] :: splitOnSpace cs
    else
      match splitOnSpace cs with
      | [] => [[c]]
      | f :: fs => (c :: f) :: fs

/-- Embedding of `iter().position(|v| *v == b'\n')`: index of the first
newline, if any. -/
def findNl : List Char → Option Nat
  | [] => none
  | c :: cs => if c = '\n' then some 0 else (findNl cs).map (· + 1)

/-- `Request` from `src/codec.rs` (same shape in `src/api/types.rs`). -/
inductive Request
  | get (key : List Char)
  | set (key : List Char) (value : List Char)
  deriving DecidableEq, Repr

/-- Outcome of parsing one line.  `panic` marks the out-of-bounds access
`components[0]` that Rust would take on an empty component vector; it is
provably unreachable. -/
inductive ParseResult
  | panic
  | error (msg : String)
  | ok (r : Request)
  deriving DecidableEq, Repr

/-- The body of `Request::parse` from `src/codec.rs`, acting on the component
vector: `components[0]` selects the command, and GET/SET demand a component
count of exactly 2 / exactly 3. -/
def parseComponents : List (List Char) → ParseResult
  | [] => .panic
  | c :: rest =>
    if c = "GET".toList then
      match rest with
      | [key] => .ok (.get key)
      | _ => .error "GET expects 1 argument separated by whitespace"
    else if c = "SET".toList then
      match rest with
      | [key, value] => .ok (.set key value)
      | _ => .error "SET expects 2 arguments separated by whitespace"
    else .error ("Unknown command: " ++ String.mk c)

/-- `Request::parse` from `src/codec.rs`. -/
def Request.parse (src : List Char) : ParseResult :=
  parseComponents (splitOnSpace src)

/-- The body of `Request::from_wire` from `src/api/codec.rs`, acting on the
component iterator: it only pulls the components it needs with `next()` and
ignores any further components. -/
def fromWireComponents : List (List Char) → ParseResult
  | [] => .error "missing command"
  | command :: rest =>
    if command = "GET".toList then
      match rest with
      | [] => .error "missing key from GET command"
      | key :: _ => .ok (.get key)
    else if command = "SET".toList then
      match rest with
      | [] => .error "missing key from SET command"
      | [_] => .error "missing value from SET command"
      | key :: value :: _ => .ok (.set key value)
    else .error ("unrecognized command: " ++ String.mk command)

/-- `Request::from_wire` from `src/api/codec.rs`. -/
def Request.from_wire (line : List Char) : ParseResult :=
  fromWireComponents (splitOnSpace line)

theorem splitOnSpace_ne_nil (l : List Char) : splitOnSpace l ≠ [] := by
  cases l with
  | nil => simp [splitOnSpace]
  | cons c cs =>
    simp only [splitOnSpace]
    by_cases h : c = ' '
    · simp [h]
    · simp only [h, if_false]
      cases splitOnSpace cs <;> simp

theorem splitOnSpace_no_space (l : List Char) (h : ' ' ∉ l) :
    splitOnSpace l = [l] := by
  induction l with
  | nil => rfl
  | cons c cs ih =>
    have hc : c ≠ ' ' := fun hc => h (hc ▸ List.mem_cons_self c cs)
    have hcs : ' ' ∉ cs := fun hm => h (List.mem_cons_of_mem c hm)
    simp [splitOnSpace, hc, ih hcs]

theorem splitOnSpace_append (xs ys : List Char) (h : ' ' ∉ xs) :
    splitOnSpace (xs ++ ' ' :: ys) = xs :: splitOnSpace ys := by
  induction xs with
  | nil => simp [splitOnSpace]
  | cons c cs ih =>
    have hc : c ≠ ' ' := fun hc => h (hc ▸ List.mem_cons_self c cs)
    have hcs : ' ' ∉ cs := fun hm => h (List.mem_cons_of_mem c hm)
    simp [splitOnSpace, hc, ih hcs]

/-- Decoder state from `src/codec.rs`: the scan cursor `next_index` remembers
how far the buffer was already scanned for a newline. -/
structure Codec where
  next_index : Nat
  deriving DecidableEq, Repr

/-- What one `Codec::decode` call reports: `Err(e)`, `Ok(None)` (no complete
line buffered yet) or `Ok(Some(request))`; `panic` lifts the unreachable
panic marker of `Request::parse`. -/
inductive DecodeOut
  | panic
  | error (msg : String)
  | none_yet
  | request (r : Request)
  deriving DecidableEq, Repr

/-- Lift a parse result into the decoder's `Request::parse(..).map(Some)`. -/
def ParseResult.toDecodeOut : ParseResult → DecodeOut
  | .panic => .panic
  | .error m => .error m
  | .ok r => .request r

/-- State after one `Codec::decode` call: decoder state, remaining buffer
contents, and the reported outcome. -/
structure DecodeResult where
  codec : Codec
  buf : List Char
  out : DecodeOut
  deriving DecidableEq, Repr

/-- `Codec::decode` from `src/codec.rs`: scan for a newline starting at the
cursor; on a hit, `split_to` the line (terminator included), strip the
terminator, reset the cursor and parse; otherwise remember the scanned length
and report that no line is complete yet. -/
def Codec.decode (c : Codec) (src : List Char) : DecodeResult :=
  match findNl (src.drop c.next_index) with
  | some i =>
    let newline_index := c.next_index + i + 1
    let line := src.take newline_index
    let line := line.dropLast
    { codec := { next_index := 0 }
      buf := src.drop newline_index
      out := (Request.parse line).toDecodeOut }
  | none =>
    { codec := { next_index := src.length }
      buf := src
      out := .none_yet }

/-- `Response` from `src/codec.rs`. -/
inductive Response
  | get (key : List Char) (value : Option (List Char))
  | set (key : List Char)
  deriving DecidableEq, Repr

/-- `Status` from `src/codec.rs`. -/
inductive Status
  | okay
  | fail
  deriving DecidableEq, Repr

/-- `Status::encode` from `src/codec.rs`. -/
def Status.encode : Status → List Char
  | .okay => "OKAY".toList
  | .fail => "FAIL".toList

/-- `Response::encode_to` from `src/codec.rs`: append status, a space, the
key, and (for a Get hit) a space and the value. -/
def Response.encode_to (r : Response) (dst : List Char) : List Char :=
  match r with
  | .set key => dst ++ Status.encode .okay ++ [' '] ++ key
  | .get key value =>
    let status := Status.encode ((value.map fun _ => Status.okay).getD .fail)
    let dst := dst ++ status ++ [' '] ++ key
    match value with
    | some v => dst ++ [' '] ++ v
    | none => dst

/-- `Codec::encode` from `src/codec.rs`: `encode_to` then append the line
terminator; never fails. -/
def Codec.encode (item : Response) (dst : List Char) : List Char :=
  Response.encode_to item dst ++ ['\n']

theorem findNl_eq_none (l : List Char) : findNl l = none ↔ '\n' ∉ l := by
  induction l with
  | nil => simp [findNl]
  | cons c cs ih =>
    by_cases hc : c = '\n'
    · simp [findNl, hc]
    · simp [findNl, hc, Option.map_eq_none', ih, Ne.symm hc]

theorem findNl_append (l rest : List Char) (h : '\n' ∉ l) :
    findNl (l ++ '\n' :: rest) = some l.length := by
  induction l with
  | nil => simp [findNl]
  | cons c cs ih =>
    have hc : c ≠ '\n' := fun hc => h (hc ▸ List.mem_cons_self c cs)
    have hcs : '\n' ∉ cs := fun hm => h (List.mem_cons_of_mem c hm)
    simp [findNl, hc, ih hcs]

theorem findNl_drop (n : Nat) (l : List Char) (h : '\n' ∉ l.take n) :
    findNl l = (findNl (l.drop n)).map (n + ·) := by
  induction n generalizing l with
  | zero =>
    simp only [List.drop_zero]
    cases findNl l <;> simp
  | succ n ih =>
    cases l with
    | nil => simp [findNl]
    | cons c cs =>
      simp only [List.take_succ_cons, List.mem_cons, not_or] at h
      obtain ⟨hc, hcs⟩ := h
      have hc' : c ≠ '\n' := fun hh => hc hh.symm
      simp only [findNl, hc', if_false, List.drop_succ_cons]
      rw [ih cs hcs]
      cases findNl (cs.drop n) with
      | none => simp
      | some i => simp; omega

/-- Reachability invariant of the decoder: all bytes before the scan cursor
were already scanned and contain no newline. -/
def Codec.Inv (c : Codec) (src : List Char) : Prop :=
  '\n' ∉ src.take c.next_index

instance (c : Codec) (src : List Char) : Decidable (Codec.Inv c src) := by
  unfold Codec.Inv; infer_instance

/-- Naive decoder that rescans the buffer from the start on every call:
`Codec::decode` with a cursor pinned at 0 and no state kept across calls. -/
def naiveDecode (src : List Char) : List Char × DecodeOut :=
  match findNl src with
  | some j => (src.drop (j + 1), (Request.parse (src.take (j + 1)).dropLast).toDecodeOut)
  | none => (src, .none_yet)

theorem decode_with_newline (c : Codec) (src l rest : List Char)
    (hInv : Codec.Inv c src) (hsplit : src = l ++ '\n' :: rest) (hl : '\n' ∉ l) :
    Codec.decode c src =
      ⟨⟨0⟩, rest, (Request.parse l).toDecodeOut⟩ := by
  have hfind : findNl src = some l.length := hsplit ▸ findNl_append l rest hl
  have hdrop := findNl_drop c.next_index src hInv
  rw [hfind] at hdrop
  cases hd : findNl (src.drop c.next_index) with
  | none => rw [hd] at hdrop; simp at hdrop
  | some i =>
    rw [hd] at hdrop
    simp at hdrop
    have hi : c.next_index + i = l.length := by omega
    have htake : src.take (c.next_index + i + 1) = l ++ ['\n'] := by
      rw [hsplit, hi, List.take_append_eq_append_take, List.take_of_length_le (by omega)]
      simp
    have hdrop2 : src.drop (c.next_index + i + 1) = rest := by
      rw [hsplit, hi, List.drop_append_eq_append_drop, List.drop_of_length_le (by omega)]
      simp
    simp only [Codec.decode, hd, htake, hdrop2, List.dropLast_concat]

theorem decode_no_newline (c : Codec) (src : List Char) (h : '\n' ∉ src) :
    Codec.decode c src = ⟨⟨src.length⟩, src, .none_yet⟩ := by
  have hd : findNl (src.drop c.next_index) = none :=
    (findNl_eq_none _).mpr fun hm => h (List.mem_of_mem_drop hm)
  simp [Codec.decode, hd]

/-- Keys of the store (`pub type Key = String`). -/
abbrev Key := List Char

/-- Values of the store (`pub type Value = String`). -/
abbrev Value := List Char

/-- Extensional model of the actor's `HashMap<Key, Value>`. -/
def StoreData := Key → Option Value

/-- `HashMap::insert`: unconditionally overwrite the value stored at `key`. -/
def StoreData.insert (data : StoreData) (key : Key) (value : Value) : StoreData :=
  fun x => if x = key then some value else data x

/-- `HashMap::get(..).map(Value::clone)`. -/
def StoreData.lookup (data : StoreData) (key : Key) : Option Value :=
  data key

/-- The empty map the actor starts from (`HashMap::new()`). -/
def StoreData.empty : StoreData := fun _ => none

/-- `Command` from `src/store.rs` / `src/storage/types.rs`.  The oneshot
reply channel `cb` of a Get is modelled by `cbAlive`: whether the receiving
half is still alive when the actor sends the reply. -/
inductive Command
  | get (key : Key) (cbAlive : Bool)
  | set (key : Key) (value : Value)

/-- What became of the reply the actor sent on a Get's oneshot channel. -/
inductive SendOutcome
  | delivered (v : Option Value)
  | dropped (v : Option Value)
  deriving DecidableEq, Repr

/-- One iteration of the actor loop in `Store::start` (`src/store.rs`) and
`Backend::start` (`src/storage/inmemory.rs`): Get looks the key up and sends
the reply, discarding the send result (`let _ = cb.send(value)`); Set inserts
the pair.  Returns the next map and, for a Get, the fate of the reply. -/
def Store.step (data : StoreData) : Command → StoreData × Option SendOutcome
  | .get key cbAlive =>
    let value := data.lookup key
    (data, some (if cbAlive then .delivered value else .dropped value))
  | .set key value => (data.insert key value, none)

/-- The actor loop: process queued commands in order until the queue ends. -/
def Store.run (data : StoreData) : List Command → StoreData
  | [] => data
  | c :: cs => Store.run (Store.step data c).fst cs

/-- The value written by the most recent `Set` to `k` in `cmds`, if any. -/
def lastSet (k : Key) : List Command → Option Value
  | [] => none
  | c :: cs =>
    match lastSet k cs with
    | some v => some v
    | none =>
      match c with
      | .set key value => if key = k then some value else none
      | .get _ _ => none

theorem run_lookup (data : StoreData) (cmds : List Command) (k : Key) :
    Store.run data cmds k =
      match lastSet k cmds with
      | some v => some v
      | none => data k := by
  induction cmds generalizing data with
  | nil => simp [Store.run, lastSet]
  | cons c cs ih =>
    cases c with
    | get key cbAlive =>
      simp only [Store.run, Store.step, lastSet, ih]
      cases lastSet k cs <;> simp
    | set key value =>
      simp only [Store.run, Store.step, lastSet, ih]
      cases h : lastSet k cs with
      | some v => simp
      | none =>
        by_cases hk : key = k
        · simp [hk, StoreData.insert]
        · have hk' : ¬ k = key := fun hh => hk hh.symm
          simp [hk, hk', StoreData.insert]

theorem lastSet_eq_none (k : Key) (cmds : List Command)
    (h : ∀ v, Command.set k v ∉ cmds) : lastSet k cmds = none := by
  induction cmds with
  | nil => rfl
  | cons c cs ih =>
    have hcs : ∀ v, Command.set k v ∉ cs := fun v hm => h v (List.mem_cons_of_mem c hm)
    cases c with
    | get key a => simp [lastSet, ih hcs]
    | set key value =>
      have hk : ¬ key = k := by
        intro hh
        subst hh
        exact h value (List.mem_cons_self _ _)
      simp [lastSet, ih hcs, hk]

theorem parseComponents_ne_panic (c : List Char) (rest : List (List Char)) :
    parseComponents (c :: rest) ≠ ParseResult.panic := by
  simp only [parseComponents]
  split
  · split <;> simp
  · split
    · split <;> simp
    · simp

theorem parseComponents_ok_iff (comps : List (List Char)) :
    (∃ r, parseComponents comps = .ok r) ↔
      ((∃ k, comps = ["GET".toList, k]) ∨ ∃ k v, comps = ["SET".toList, k, v]) := by
  have hGS : "GET".toList ≠ "SET".toList := by decide
  cases comps with
  | nil => simp [parseComponents]
  | cons c rest =>
    by_cases hG : c = "GET".toList
    · subst hG
      cases rest with
      | nil => simp [parseComponents, hGS]
      | cons a as =>
        cases as with
        | nil => simp [parseComponents, hGS]
        | cons b bs => simp [parseComponents, hGS]
    · by_cases hS : c = "SET".toList
      · subst hS
        cases rest with
        | nil => simp [parseComponents, hGS.symm]
        | cons a as =>
          cases as with
          | nil => simp [parseComponents, hGS.symm]
          | cons b bs =>
            cases bs with
            | nil => simp [parseComponents, hGS.symm]
            | cons d ds => simp [parseComponents, hGS.symm]
      · have hG2 : ¬ c = ['G', 'E', 'T'] := hG
        have hS2 : ¬ c = ['S', 'E', 'T'] := hS
        simp [parseComponents, hG2, hS2]

theorem fromWireComponents_ok_iff (comps : List (List Char)) :
    (∃ r, fromWireComponents comps = .ok r) ↔
      ((∃ k rest, comps = "GET".toList :: k :: rest) ∨
       ∃ k v rest, comps = "SET".toList :: k :: v :: rest) := by
  have hGS : "GET".toList ≠ "SET".toList := by decide
  cases comps with
  | nil => simp [fromWireComponents]
  | cons c rest =>
    by_cases hG : c = "GET".toList
    · subst hG
      cases rest with
      | nil => simp [fromWireComponents, hGS]
      | cons a as => simp [fromWireComponents, hGS]
    · by_cases hS : c = "SET".toList
      · subst hS
        cases rest with
        | nil => simp [fromWireComponents, hGS.symm]
        | cons a as =>
          cases as with
          | nil => simp [fromWireComponents, hGS.symm]
          | cons b bs => simp [fromWireComponents, hGS.symm]
      · have hG2 : ¬ c = ['G', 'E', 'T'] := hG
        have hS2 : ¬ c = ['S', 'E', 'T'] := hS
        simp [fromWireComponents, hG2, hS2]

theorem findNl_spec (src : List Char) (j : Nat) (h : findNl src = some j) :
    ∃ l rest, src = l ++ '\n' :: rest ∧ '\n' ∉ l ∧ l.length = j := by
  induction src generalizing j with
  | nil => simp [findNl] at h
  | cons c cs ih =>
    by_cases hc : c = '\n'
    · subst hc
      simp [findNl] at h
      exact ⟨[], cs, by simp, by simp, by simp [← h]⟩
    · simp only [findNl, hc, if_false] at h
      cases hcs : findNl cs with
      | none => rw [hcs] at h; simp at h
      | some j2 =>
        rw [hcs] at h
        simp at h
        obtain ⟨l, rest, hsplit, hl, hlen⟩ := ih j2 hcs
        refine ⟨c :: l, rest, by simp [hsplit], ?_, by simp [hlen, ← h]⟩
        simp only [List.mem_cons, not_or]
        exact ⟨fun hh => hc hh.symm, hl⟩

theorem naiveDecode_eq_decode_zero (src : List Char) :
    naiveDecode src = ((Codec.decode ⟨0⟩ src).buf, (Codec.decode ⟨0⟩ src).out) := by
  simp only [naiveDecode, Codec.decode, List.drop_zero]
  cases findNl src <;> simp [Nat.zero_add]

/-- C1: for every sequence of commands processed by the store actor, a
subsequent Get(k) replies with the value of the most recent Set(k, v) in the
sequence (last-write-wins by application order), and with absence for every
key that was never Set. -/
theorem store_get_last_write_wins (cmds : List Command) (k : Key) (a : Bool) :
    (Store.step (Store.run StoreData.empty cmds) (Command.get k a)).snd =
      some (if a then SendOutcome.delivered (lastSet k cmds)
            else SendOutcome.dropped (lastSet k cmds)) ∧
    Store.run StoreData.empty cmds k = lastSet k cmds ∧
    ((∀ v, Command.set k v ∉ cmds) → Store.run StoreData.empty cmds k = none) := by
  have h1 : Store.run StoreData.empty cmds k = lastSet k cmds := by
    rw [run_lookup]
    cases lastSet k cmds <;> simp [StoreData.empty]
  refine ⟨?_, h1, fun h => by rw [h1, lastSet_eq_none k cmds h]⟩
  simp [Store.step, StoreData.lookup, h1]

/-- C1 witness: after Set(a,1); Set(a,2), a Get(a) replies with 2, and a
Get(b) on the never-set key b replies with absence. -/
theorem store_get_last_write_wins_witness :
    (∀ v, Command.set ("b".toList) v ∉
      [Command.set "a".toList "1".toList, Command.set "a".toList "2".toList]) ∧
    Store.run StoreData.empty
      [Command.set "a".toList "1".toList, Command.set "a".toList "2".toList]
      "b".toList = none ∧
    (Store.step
      (Store.run StoreData.empty
        [Command.set "a".toList "1".toList, Command.set "a".toList "2".toList])
      (Command.get "a".toList true)).snd =
      some (SendOutcome.delivered (lastSet "a".toList
        [Command.set "a".toList "1".toList, Command.set "a".toList "2".toList])) := by
  have hb : ∀ v, Command.set ("b".toList) v ∉
      [Command.set "a".toList "1".toList, Command.set "a".toList "2".toList] := by
    intro v hm
    rcases List.mem_cons.mp hm with h | hm2
    · rw [Command.set.injEq] at h
      exact absurd h.1 (by decide)
    · rcases List.mem_cons.mp hm2 with h | hm3
      · rw [Command.set.injEq] at h
        exact absurd h.1 (by decide)
      · simp at hm3
  refine ⟨hb, (store_get_last_write_wins _ _ true).2.2 hb, ?_⟩
  exact (store_get_last_write_wins
    [Command.set "a".toList "1".toList, Command.set "a".toList "2".toList]
    "a".toList true).1

/-- C8: Get is idempotent and never mutates the store: processing a Get
leaves the map unchanged, and two consecutive Get(k) commands with no
intervening Set report identical replies. -/
theorem get_idempotent_no_mutation (data : StoreData) (k : Key) (a : Bool) :
    (Store.step data (Command.get k a)).fst = data ∧
    (Store.step (Store.step data (Command.get k a)).fst (Command.get k a)).snd =
      (Store.step data (Command.get k a)).snd :=
  ⟨rfl, rfl⟩

/-- C10: the actor survives a dropped Get caller: with the reply channel
closed (`cbAlive = false`) the failed send is discarded as a `dropped`
outcome, the map is unchanged by that Get, and the loop goes on to process
the remaining queued commands exactly as it would without the dropped Get. -/
theorem actor_survives_dropped_get_caller (data : StoreData) (k : Key)
    (rest : List Command) :
    (Store.step data (Command.get k false)).snd =
      some (SendOutcome.dropped (StoreData.lookup data k)) ∧
    (Store.step data (Command.get k false)).fst = data ∧
    Store.run data (Command.get k false :: rest) = Store.run data rest :=
  ⟨rfl, rfl, rfl⟩

/-- C9: `Request::parse` is total and never panics: splitting any line on
spaces yields at least one component, so the `components[0]` access is always
in bounds, and the empty line is reported as an unknown-command parse error
rather than a crash. -/
theorem parse_never_panics :
    (∀ src : List Char, Request.parse src ≠ ParseResult.panic) ∧
    (∀ src : List Char, splitOnSpace src ≠ []) ∧
    Request.parse [] = ParseResult.error "Unknown command: " := by
  refine ⟨?_, splitOnSpace_ne_nil, by rfl⟩
  intro src
  unfold Request.parse
  cases h : splitOnSpace src with
  | nil => exact absurd h (splitOnSpace_ne_nil src)
  | cons c rest => exact parseComponents_ne_panic c rest

/-- C2 counterexample: `Request::from_wire` accepts the line `GET a b`,
whose GET command carries two further fields instead of exactly one, so the
claim that any other field count is a parse error fails for
`src/api/codec.rs`. -/
theorem from_wire_extra_field_ok :
    Request.from_wire ("GET a b".toList) = ParseResult.ok (Request.get "a".toList) ∧
    splitOnSpace ("GET a b".toList) = ["GET".toList, "a".toList, "b".toList] :=
  ⟨rfl, rfl⟩

/-- C2 (amended): `Request::parse` of `src/codec.rs` succeeds exactly on
lines whose fields are GET plus exactly one further field, or SET plus
exactly two further fields (any other field count or command token is a
parse error), while `Request::from_wire` of `src/api/codec.rs` succeeds
exactly when at least that many fields are present, silently ignoring any
extra trailing fields. -/
theorem parse_succeeds_iff_grammar (line : List Char) :
    ((∃ r, Request.parse line = ParseResult.ok r) ↔
      ((∃ k, splitOnSpace line = ["GET".toList, k]) ∨
       ∃ k v, splitOnSpace line = ["SET".toList, k, v])) ∧
    ((∃ r, Request.from_wire line = ParseResult.ok r) ↔
      ((∃ k rest, splitOnSpace line = "GET".toList :: k :: rest) ∨
       ∃ k v rest, splitOnSpace line = "SET".toList :: k :: v :: rest)) :=
  ⟨parseComponents_ok_iff (splitOnSpace line),
   fromWireComponents_ok_iff (splitOnSpace line)⟩

/-- C4: a malformed terminated line is reported as a decode failure and its
bytes are still consumed: for any newline-free line on which `Request::parse`
fails, decoding `line ++ "\n"` yields that error and empties the buffer
(the malformed line is discarded, not left for retry). -/
theorem decode_discards_malformed_line (l : List Char) (msg : String)
    (hl : '\n' ∉ l) (herr : Request.parse l = ParseResult.error msg) :
    Codec.decode ⟨0⟩ (l ++ ['\n']) = ⟨⟨0⟩, [], DecodeOut.error msg⟩ := by
  have h := decode_with_newline ⟨0⟩ (l ++ ['\n']) l []
    (by simp [Codec.Inv]) rfl hl
  rw [h, herr]
  rfl

/-- C4 witness: decoding the buffer `GET\n` fails with the GET-arity error
and leaves the buffer empty. -/
theorem decode_discards_malformed_line_witness :
    Request.parse ("GET".toList) =
      ParseResult.error "GET expects 1 argument separated by whitespace" ∧
    Codec.decode ⟨0⟩ ("GET\n".toList) =
      ⟨⟨0⟩, [], DecodeOut.error "GET expects 1 argument separated by whitespace"⟩ :=
  ⟨rfl, decode_discards_malformed_line "GET".toList
    "GET expects 1 argument separated by whitespace" (by decide) rfl⟩

/-- C3 counterexample: with the buffer `FOO\n` a newline is present, yet
`Codec::decode` does not return a request: it reports an unknown-command
decode error, so the claim that a present terminator always yields
`Some(Request)` fails. -/
theorem decode_terminated_line_not_request :
    (Codec.decode ⟨0⟩ ("FOO\n".toList)).out = DecodeOut.error "Unknown command: FOO" ∧
    '\n' ∈ "FOO\n".toList :=
  ⟨rfl, by decide⟩

/-- C3 (amended): when a `\n` terminator is present, `Codec::decode` consumes
exactly the bytes of one complete line (terminator included) and returns the
parse of that line — `Some(Request)` for a well-formed line, a decode error
otherwise; when no terminator is buffered it returns `None` and leaves the
buffer contents unchanged. -/
theorem decode_consumes_one_line_or_waits (c : Codec) (src l rest : List Char)
    (hInv : Codec.Inv c src) :
    (src = l ++ '\n' :: rest → '\n' ∉ l →
      Codec.decode c src = ⟨⟨0⟩, rest, (Request.parse l).toDecodeOut⟩) ∧
    ('\n' ∉ src → Codec.decode c src = ⟨⟨src.length⟩, src, DecodeOut.none_yet⟩) :=
  ⟨fun hs hl => decode_with_newline c src l rest hInv hs hl,
   fun h => decode_no_newline c src h⟩

/-- C3 witness: decoding `GET k\nSE` extracts the line `GET k` as a request,
leaves the partial tail `SE` in the buffer, and resets the cursor. -/
theorem decode_consumes_one_line_or_waits_witness :
    Codec.Inv ⟨0⟩ ("GET k\nSE".toList) ∧
    Codec.decode ⟨0⟩ ("GET k\nSE".toList) =
      ⟨⟨0⟩, "SE".toList, DecodeOut.request (Request.get "k".toList)⟩ :=
  ⟨by decide,
   (decode_consumes_one_line_or_waits ⟨0⟩ ("GET k\nSE".toList)
      ("GET k".toList) ("SE".toList) (by decide)).1 rfl (by decide)⟩

/-- C6: the scan-cursor decoder is observably equivalent to a naive decoder
that rescans the buffer from the start on every call: from any state
satisfying the cursor invariant (all bytes before the cursor already scanned
and newline-free), one decode call consumes the same bytes and reports the
same outcome as the naive decoder, the cursor is reset to 0 whenever a line
is extracted, and after the call the invariant holds for the remaining buffer
extended by any later append — so growth never re-splits scanned bytes or
misses a terminator, and a trailing partial line stays in the buffer
untouched. -/
theorem decode_equiv_naive (c : Codec) (src : List Char) (hInv : Codec.Inv c src) :
    (Codec.decode c src).buf = (naiveDecode src).fst ∧
    (Codec.decode c src).out = (naiveDecode src).snd ∧
    ((Codec.decode c src).out ≠ DecodeOut.none_yet →
      (Codec.decode c src).codec.next_index = 0) ∧
    (∀ extra : List Char,
      Codec.Inv (Codec.decode c src).codec ((Codec.decode c src).buf ++ extra)) := by
  cases hf : findNl src with
  | none =>
    have hn : '\n' ∉ src := (findNl_eq_none src).mp hf
    have hd := decode_no_newline c src hn
    have hnaive : naiveDecode src = (src, DecodeOut.none_yet) := by
      simp [naiveDecode, hf]
    rw [hd, hnaive]
    refine ⟨rfl, rfl, fun h => absurd rfl h, ?_⟩
    intro extra
    simp only [Codec.Inv]
    rw [List.take_left]
    exact hn
  | some j =>
    obtain ⟨l, rest, hsplit, hl, hlen⟩ := findNl_spec src j hf
    have hd := decode_with_newline c src l rest hInv hsplit hl
    have hf2 : findNl src = some l.length := hsplit ▸ findNl_append l rest hl
    have htake : src.take (l.length + 1) = l ++ ['\n'] := by
      rw [hsplit, List.take_append_eq_append_take, List.take_of_length_le (by omega)]
      simp
    have hdrop2 : src.drop (l.length + 1) = rest := by
      rw [hsplit, List.drop_append_eq_append_drop, List.drop_of_length_le (by omega)]
      simp
    have hnaive : naiveDecode src = (rest, (Request.parse l).toDecodeOut) := by
      simp [naiveDecode, hf2, htake, hdrop2, List.dropLast_concat]
    rw [hd, hnaive]
    exact ⟨rfl, rfl, fun _ => rfl, fun extra => by simp [Codec.Inv]⟩

/-- C6 witness: on the buffer `SET a 1\nGE` with a fresh decoder the cursor
decoder and the naive decoder agree on the remaining buffer. -/
theorem decode_equiv_naive_witness :
    Codec.Inv ⟨0⟩ ("SET a 1\nGE".toList) ∧
    (Codec.decode ⟨0⟩ ("SET a 1\nGE".toList)).buf =
      (naiveDecode ("SET a 1\nGE".toList)).fst :=
  ⟨by decide, (decode_equiv_naive ⟨0⟩ ("SET a 1\nGE".toList) (by decide)).1⟩

/-- C5: encoding is total — it is a plain function with no failure path —
and appends exactly one newline-terminated line: `Set{key}` encodes as
`OKAY key`, `Get{key, some value}` as `OKAY key value`, `Get{key, none}` as
`FAIL key`, each followed by `\n`; for newline-free fields the emitted bytes
contain exactly one `\n`, the final one. -/
theorem encode_total_one_line (dst k v : List Char) :
    Codec.encode (Response.set k) dst = dst ++ "OKAY ".toList ++ k ++ ['\n'] ∧
    Codec.encode (Response.get k (some v)) dst =
      dst ++ "OKAY ".toList ++ k ++ " ".toList ++ v ++ ['\n'] ∧
    Codec.encode (Response.get k none) dst = dst ++ "FAIL ".toList ++ k ++ ['\n'] ∧
    ('\n' ∉ k → (Codec.encode (Response.set k) []).count '\n' = 1) ∧
    ('\n' ∉ k → '\n' ∉ v →
      (Codec.encode (Response.get k (some v)) []).count '\n' = 1) ∧
    ('\n' ∉ k → (Codec.encode (Response.get k none) []).count '\n' = 1) := by
  have hO : "OKAY ".toList = "OKAY".toList ++ [' '] := rfl
  have hF : "FAIL ".toList = "FAIL".toList ++ [' '] := rfl
  have hsp : " ".toList = [' '] := rfl
  have e1 : ∀ d : List Char,
      Codec.encode (Response.set k) d = d ++ "OKAY ".toList ++ k ++ ['\n'] := by
    intro d
    simp [Codec.encode, Response.encode_to, Status.encode, hO, List.append_assoc]
  have e2 : ∀ d : List Char, Codec.encode (Response.get k (some v)) d =
      d ++ "OKAY ".toList ++ k ++ " ".toList ++ v ++ ['\n'] := by
    intro d
    simp [Codec.encode, Response.encode_to, Status.encode, hO, hsp, List.append_assoc]
  have e3 : ∀ d : List Char,
      Codec.encode (Response.get k none) d = d ++ "FAIL ".toList ++ k ++ ['\n'] := by
    intro d
    simp [Codec.encode, Response.encode_to, Status.encode, hF, List.append_assoc]
  have hcO : ("OKAY ".toList).count '\n' = 0 := by decide
  have hcF : ("FAIL ".toList).count '\n' = 0 := by decide
  refine ⟨e1 dst, e2 dst, e3 dst, ?_, ?_, ?_⟩
  · intro hk
    rw [e1 []]
    simp [List.count_append, hcO, List.count_eq_zero.mpr hk]
  · intro hk hv
    rw [e2 []]
    simp [List.count_append, hcO, List.count_eq_zero.mpr hk, List.count_eq_zero.mpr hv]
  · intro hk
    rw [e3 []]
    simp [List.count_append, hcF, List.count_eq_zero.mpr hk]

/-- C5 witness: encoding `Set{key}` onto the empty buffer yields exactly
`OKAY key\n`, with a single newline. -/
theorem encode_total_one_line_witness :
    Codec.encode (Response.set "key".toList) [] = "OKAY key\n".toList ∧
    (Codec.encode (Response.set "key".toList) []).count '\n' = 1 :=
  ⟨(encode_total_one_line [] "key".toList "value".toList).1,
   (encode_total_one_line [] "key".toList "value".toList).2.2.2.1 (by decide)⟩

/-- C7: codec round trip for well-formed fields: for keys and values that
are non-empty, space-free and newline-free, parsing the wire line built from
the logical fields reproduces them — `GET key` parses to `Get{key}` and
`SET key value` to `Set{key, value}` — the full decode of the terminated
line yields the same request while emptying the buffer, and the layout
matches what the encoder emits (`OKAY key value` carries the same key and
value fields in the same order). -/
theorem codec_round_trip (k v : List Char)
    (hk0 : k ≠ []) (hv0 : v ≠ []) (hks : ' ' ∉ k) (hvs : ' ' ∉ v)
    (hkn : '\n' ∉ k) (hvn : '\n' ∉ v) :
    Request.parse ("GET ".toList ++ k) = ParseResult.ok (Request.get k) ∧
    Request.parse ("SET ".toList ++ k ++ " ".toList ++ v) =
      ParseResult.ok (Request.set k v) ∧
    Codec.decode ⟨0⟩ ("GET ".toList ++ k ++ ['\n']) =
      ⟨⟨0⟩, [], DecodeOut.request (Request.get k)⟩ ∧
    Codec.decode ⟨0⟩ ("SET ".toList ++ k ++ " ".toList ++ v ++ ['\n']) =
      ⟨⟨0⟩, [], DecodeOut.request (Request.set k v)⟩ ∧
    Codec.encode (Response.get k (some v)) [] =
      "OKAY ".toList ++ k ++ " ".toList ++ v ++ ['\n'] := by
  have hG : "GET ".toList ++ k = "GET".toList ++ ' ' :: k := by simp
  have hS : "SET ".toList ++ k ++ " ".toList ++ v =
      "SET".toList ++ ' ' :: (k ++ ' ' :: v) := by simp
  have hpg : Request.parse ("GET ".toList ++ k) = ParseResult.ok (Request.get k) := by
    unfold Request.parse
    rw [hG, splitOnSpace_append _ _ (by decide), splitOnSpace_no_space k hks]
    simp [parseComponents]
  have hps : Request.parse ("SET ".toList ++ k ++ " ".toList ++ v) =
      ParseResult.ok (Request.set k v) := by
    unfold Request.parse
    rw [hS, splitOnSpace_append _ _ (by decide), splitOnSpace_append k v hks,
      splitOnSpace_no_space v hvs]
    have hGS : ¬ ("SET".toList = "GET".toList) := by decide
    simp [parseComponents, hGS]
  have hnlG : '\n' ∉ "GET ".toList ++ k := by
    simp only [List.mem_append, not_or]
    exact ⟨by decide, hkn⟩
  have hnlS : '\n' ∉ "SET ".toList ++ k ++ " ".toList ++ v := by
    simp only [List.mem_append, not_or]
    exact ⟨⟨⟨by decide, hkn⟩, by decide⟩, hvn⟩
  have hdg := decode_with_newline ⟨0⟩ ("GET ".toList ++ k ++ ['\n'])
    ("GET ".toList ++ k) [] (by simp [Codec.Inv]) (by simp) hnlG
  have hds := decode_with_newline ⟨0⟩ ("SET ".toList ++ k ++ " ".toList ++ v ++ ['\n'])
    ("SET ".toList ++ k ++ " ".toList ++ v) [] (by simp [Codec.Inv]) (by simp) hnlS
  rw [hpg] at hdg
  rw [hps] at hds
  have henc : Codec.encode (Response.get k (some v)) [] =
      "OKAY ".toList ++ k ++ " ".toList ++ v ++ ['\n'] := by
    simp [Codec.encode, Response.encode_to, Status.encode,
      (show "OKAY ".toList = "OKAY".toList ++ [' '] from rfl),
      (show " ".toList = [' '] from rfl), List.append_assoc]
  exact ⟨hpg, hps, hdg, hds, henc⟩

/-- C7 witness: `GET key` parses back to `Get{key}` and the terminated line
`SET key value\n` decodes to `Set{key, value}` with an empty buffer left. -/
theorem codec_round_trip_witness :
    (' ' ∉ "key".toList ∧ '\n' ∉ "value".toList) ∧
    Request.parse ("GET key".toList) = ParseResult.ok (Request.get "key".toList) ∧
    Codec.decode ⟨0⟩ ("SET key value\n".toList) =
      ⟨⟨0⟩, [], DecodeOut.request (Request.set "key".toList "value".toList)⟩ :=
  ⟨by decide,
   (codec_round_trip "key".toList "value".toList (by decide) (by decide)
     (by decide) (by decide) (by decide) (by decide)).1,
   (codec_round_trip "key".toList "value".toList (by decide) (by decide)
     (by decide) (by decide) (by decide) (by decide)).2.2.2.1⟩
